import Mathlib

/-!
Verification of the triplet-loss core and dataset helpers of the
Fashion-MNIST estimator repository.

The repository's `model/model_fn.py` imports `batch_all_triplet_loss`,
`batch_hard_triplet_loss` and `semi_hard_triplet_loss` from
`model/triplet_loss.py`; that module is not part of the available sources,
so its functions are modelled from the specification (§4.1–§4.5), as noted
on each definition.  `model_fn.py` (strategy dispatch, metric wiring) and
`fmnist_dataset.py` (header checks, image decoding) are embedded from the
source directly.

Embeddings are batches `Fin n → Fin D → ℝ`; labels are `Fin n → ℤ`
(the source casts labels to int64).  Real numbers stand for the floats of
the source; the clamping and diagonal-zeroing rules of §4.1 are reproduced
exactly.
-/

open Finset

namespace TripletRepo

/-- Modelled from the spec: `model/triplet_loss.py` is absent from the
sources.  §4.1: Gram matrix `G = E·Eᵗ` of an embedding batch. -/
def gram {n D : ℕ} (E : Fin n → Fin D → ℝ) (i j : Fin n) : ℝ :=
  ∑ k, E i k * E j k

/-- Modelled from the spec: `model/triplet_loss.py` is absent from the
sources.  §4.1: squared distance `G[i,i] - 2·G[i,j] + G[j,j]`, clamped to
`max 0 ·` against negative-due-to-rounding values. -/
def squared_distances {n D : ℕ} (E : Fin n → Fin D → ℝ) (i j : Fin n) : ℝ :=
  max 0 (gram E i i - 2 * gram E i j + gram E j j)

/-- Modelled from the spec: `model/triplet_loss.py` is absent from the
sources.  §4.1: if squared distance is requested the clamped values are
returned directly; otherwise the square root of the clamped squared
distance is taken and the diagonal is forced to exactly 0. -/
noncomputable def pairwise_distances {n D : ℕ} (E : Fin n → Fin D → ℝ) (squared : Bool)
    (i j : Fin n) : ℝ :=
  if squared then squared_distances E i j
  else if i = j then 0 else Real.sqrt (squared_distances E i j)

/-- Modelled from the spec: `model/triplet_loss.py` is absent from the
sources.  §4.2: anchor-positive[i,j] = (i≠j) ∧ (label[i]=label[j]). -/
def anchor_positive_mask {n : ℕ} (labels : Fin n → ℤ) (i j : Fin n) : Bool :=
  decide (i ≠ j) && decide (labels i = labels j)

/-- Modelled from the spec: `model/triplet_loss.py` is absent from the
sources.  §4.2: anchor-negative[i,k] = (label[i]≠label[k]). -/
def anchor_negative_mask {n : ℕ} (labels : Fin n → ℤ) (i k : Fin n) : Bool :=
  !(decide (labels i = labels k))

/-- Modelled from the spec: `model/triplet_loss.py` is absent from the
sources.  §4.2: full triplet mask[i,j,k] = distinct(i,j,k) ∧
label[i]=label[j] ∧ label[i]≠label[k]. -/
def triplet_mask {n : ℕ} (labels : Fin n → ℤ) (i j k : Fin n) : Bool :=
  decide (i ≠ j) && decide (i ≠ k) && decide (j ≠ k) &&
    (decide (labels i = labels j) && !(decide (labels i = labels k)))

theorem gram_comm {n D : ℕ} (E : Fin n → Fin D → ℝ) (i j : Fin n) :
    gram E i j = gram E j i := by
  unfold gram
  exact Finset.sum_congr rfl fun k _ => mul_comm _ _

theorem squared_distances_comm {n D : ℕ} (E : Fin n → Fin D → ℝ) (i j : Fin n) :
    squared_distances E i j = squared_distances E j i := by
  unfold squared_distances
  rw [gram_comm E i j]
  ring_nf

theorem squared_distances_self {n D : ℕ} (E : Fin n → Fin D → ℝ) (i : Fin n) :
    squared_distances E i i = 0 := by
  unfold squared_distances
  have h : gram E i i - 2 * gram E i i + gram E i i = 0 := by ring
  rw [h, max_self]

/-- C1: for every embedding batch the squared-distance matrix is symmetric
with zero diagonal, and the non-squared matrix is symmetric, everywhere
nonnegative, with exactly-zero diagonal (totality in ℝ models the absence
of `NaN`: clamping precedes the square root, so the root is never taken of
a negative value). -/
theorem pairwise_distance_matrix_props {n D : ℕ} (E : Fin n → Fin D → ℝ) :
    (∀ i j, pairwise_distances E true i j = pairwise_distances E true j i) ∧
    (∀ i, pairwise_distances E true i i = 0) ∧
    (∀ i j, pairwise_distances E false i j = pairwise_distances E false j i) ∧
    (∀ i, pairwise_distances E false i i = 0) ∧
    (∀ i j, 0 ≤ pairwise_distances E false i j) := by
  refine ⟨fun i j => ?_, fun i => ?_, fun i j => ?_, fun i => ?_, fun i j => ?_⟩
  · simp only [pairwise_distances, if_true]
    exact squared_distances_comm E i j
  · simp only [pairwise_distances, if_true]
    exact squared_distances_self E i
  · simp only [pairwise_distances, Bool.false_eq_true, if_false]
    rcases eq_or_ne i j with h | h
    · subst h; rfl
    · rw [if_neg h, if_neg (Ne.symm h), squared_distances_comm E i j]
  · simp [pairwise_distances]
  · simp only [pairwise_distances, Bool.false_eq_true, if_false]
    rcases eq_or_ne i j with h | h
    · subst h; simp
    · rw [if_neg h]
      exact Real.sqrt_nonneg _

/-- C2: characterisation of the three validity masks, and the concrete
anchor-positive mask for labels `[0,0,1,1]`. -/
theorem triplet_masks_correct {n : ℕ} (labels : Fin n → ℤ) :
    (∀ i j, anchor_positive_mask labels i j = true ↔
        i ≠ j ∧ labels i = labels j) ∧
    (∀ i j, anchor_negative_mask labels i j = true ↔ labels i ≠ labels j) ∧
    (∀ i j k, triplet_mask labels i j k = true ↔
        (i ≠ j ∧ i ≠ k ∧ j ≠ k) ∧ labels i = labels j ∧ labels i ≠ labels k) ∧
    (∀ i j : Fin 4, anchor_positive_mask (![0, 0, 1, 1] : Fin 4 → ℤ) i j = true ↔
        (i, j) ∈ ([(0, 1), (1, 0), (2, 3), (3, 2)] : List (Fin 4 × Fin 4))) := by
  refine ⟨fun i j => ?_, fun i j => ?_, fun i j k => ?_, by decide⟩
  · simp [anchor_positive_mask]
  · simp [anchor_negative_mask]
  · simp [triplet_mask, and_assoc]

/-- Modelled from the spec: `model/triplet_loss.py` is absent from the
sources.  §4.3: tolerance `1e-16` for counting active triplets (also the
tiny epsilon added to the denominators). -/
noncomputable def tol : ℝ := 1 / 10 ^ 16

/-- Modelled from the spec: `model/triplet_loss.py` is absent from the
sources.  §4.3: per-triplet hinge value — `d[i,j] - d[i,k] + margin`,
zeroed where the full triplet mask is false, clamped to `max 0 ·`. -/
noncomputable def triplet_hinge {n D : ℕ} (labels : Fin n → ℤ) (E : Fin n → Fin D → ℝ)
    (margin : ℝ) (squared : Bool) (i j k : Fin n) : ℝ :=
  max 0 (if triplet_mask labels i j k then
    pairwise_distances E squared i j - pairwise_distances E squared i k + margin
  else 0)

/-- Modelled from the spec: `model/triplet_loss.py` is absent from the
sources.  §4.3: number of triplets whose hinge value exceeds the `1e-16`
tolerance. -/
noncomputable def num_positive_triplets {n D : ℕ} (labels : Fin n → ℤ)
    (E : Fin n → Fin D → ℝ) (margin : ℝ) (squared : Bool) : ℕ :=
  (@Finset.filter _
    (fun t : Fin n × Fin n × Fin n => tol < triplet_hinge labels E margin squared t.1 t.2.1 t.2.2)
    (Classical.decPred _) Finset.univ).card

/-- Modelled from the spec: `model/triplet_loss.py` is absent from the
sources.  §4.3: number of triplets the full triplet mask marks valid. -/
def num_valid_triplets {n : ℕ} (labels : Fin n → ℤ) : ℕ :=
  (Finset.univ.filter
    (fun t : Fin n × Fin n × Fin n => triplet_mask labels t.1 t.2.1 t.2.2 = true)).card

/-- Modelled from the spec: `model/triplet_loss.py` is absent from the
sources.  §4.3 exhaustive (batch-all) mining: loss = sum of hinge values
over all triples divided by (active count + 1e-16); fraction = active
count divided by (valid count + 1e-16). -/
noncomputable def batch_all_triplet_loss {n D : ℕ} (labels : Fin n → ℤ)
    (E : Fin n → Fin D → ℝ) (margin : ℝ) (squared : Bool) : ℝ × ℝ :=
  ((∑ t : Fin n × Fin n × Fin n, triplet_hinge labels E margin squared t.1 t.2.1 t.2.2) /
      (num_positive_triplets labels E margin squared + tol),
   (num_positive_triplets labels E margin squared : ℝ) / (num_valid_triplets labels + tol))

theorem triplet_hinge_of_mask_false {n D : ℕ} {labels : Fin n → ℤ}
    {E : Fin n → Fin D → ℝ} {margin : ℝ} {squared : Bool} {i j k : Fin n}
    (h : triplet_mask labels i j k = false) :
    triplet_hinge labels E margin squared i j k = 0 := by
  unfold triplet_hinge
  rw [h]
  simp

/-- C3: when the full triplet mask is all-false (degenerate batch: a single
class, or fewer than three samples), the exhaustive batch-all loss returns
loss = 0 and fraction = 0 — no error and no division by zero. -/
theorem batch_all_degenerate_batch {n D : ℕ} (labels : Fin n → ℤ)
    (E : Fin n → Fin D → ℝ) (margin : ℝ) (squared : Bool)
    (hmask : ∀ i j k : Fin n, triplet_mask labels i j k = false) :
    batch_all_triplet_loss labels E margin squared = (0, 0) := by
  have hhinge : ∀ t : Fin n × Fin n × Fin n,
      triplet_hinge labels E margin squared t.1 t.2.1 t.2.2 = 0 := fun t =>
    triplet_hinge_of_mask_false (hmask t.1 t.2.1 t.2.2)
  have hpos : num_positive_triplets labels E margin squared = 0 := by
    unfold num_positive_triplets
    rw [Finset.card_eq_zero, Finset.filter_eq_empty_iff]
    intro t _
    rw [hhinge t]
    norm_num [tol]
  unfold batch_all_triplet_loss
  rw [hpos]
  have hsum : (∑ t : Fin n × Fin n × Fin n,
      triplet_hinge labels E margin squared t.1 t.2.1 t.2.2) = 0 :=
    Finset.sum_eq_zero fun t _ => hhinge t
  rw [hsum]
  simp

/-- Witness for C3: the single-sample batch with labels `[0]` has an
all-false triplet mask and yields loss 0 and fraction 0. -/
theorem batch_all_degenerate_batch_witness :
    (∀ i j k : Fin 1, triplet_mask (![0] : Fin 1 → ℤ) i j k = false) ∧
    batch_all_triplet_loss (![0] : Fin 1 → ℤ) (fun _ _ => (0 : ℝ) : Fin 1 → Fin 1 → ℝ)
      (1 / 2) false = (0, 0) :=
  ⟨by decide, batch_all_degenerate_batch ![0] (fun _ _ => (0 : ℝ)) (1 / 2) false (by decide)⟩

/-- Modelled from the spec: `model/triplet_loss.py` is absent from the
sources.  §4.5 step 1 support set: the valid negatives of anchor `i`. -/
def validNegs {n : ℕ} (labels : Fin n → ℤ) (i : Fin n) : Finset (Fin n) :=
  Finset.univ.filter (fun k => anchor_negative_mask labels i k = true)

/-- Modelled from the spec: `model/triplet_loss.py` is absent from the
sources.  §4.5 step 1: the semi-hard candidates for the ordered pair
`(i,j)` — valid negatives strictly farther from the anchor than the
positive (semi-hard mining always uses non-squared distances). -/
noncomputable def semiHardCands {n D : ℕ} (labels : Fin n → ℤ) (E : Fin n → Fin D → ℝ)
    (i j : Fin n) : Finset (Fin n) :=
  @Finset.filter _
    (fun k => anchor_negative_mask labels i k = true ∧
      pairwise_distances E false i j < pairwise_distances E false i k)
    (Classical.decPred _) Finset.univ

/-- Modelled from the spec: `model/triplet_loss.py` is absent from the
sources.  §4.5 steps 2–3: the distance of the chosen negative — the
closest semi-hard candidate when one exists, otherwise the overall hardest
(farthest) valid negative of anchor `i`. -/
noncomputable def chosenNegDist {n D : ℕ} (labels : Fin n → ℤ) (E : Fin n → Fin D → ℝ)
    (i j : Fin n) : ℝ :=
  if h : (semiHardCands labels E i j).Nonempty then
    (semiHardCands labels E i j).inf' h (fun k => pairwise_distances E false i k)
  else if h2 : (validNegs labels i).Nonempty then
    (validNegs labels i).sup' h2 (fun k => pairwise_distances E false i k)
  else 0

/-- Modelled from the spec: `model/triplet_loss.py` is absent from the
sources.  §4.5 step 4: per-pair hinge loss against the chosen negative. -/
noncomputable def semi_hard_pair_loss {n D : ℕ} (labels : Fin n → ℤ) (E : Fin n → Fin D → ℝ)
    (margin : ℝ) (i j : Fin n) : ℝ :=
  max 0 (pairwise_distances E false i j - chosenNegDist labels E i j + margin)

/-- Modelled from the spec: `model/triplet_loss.py` is absent from the
sources.  §4.5: the ordered anchor-positive pairs of the batch. -/
def anchorPositivePairs {n : ℕ} (labels : Fin n → ℤ) : Finset (Fin n × Fin n) :=
  Finset.univ.filter (fun p => anchor_positive_mask labels p.1 p.2 = true)

/-- Modelled from the spec: `model/triplet_loss.py` is absent from the
sources.  §4.5: semi-hard loss — mean of the per-pair losses over all
valid anchor-positive pairs (0 when none exists; the signature carries no
squared flag). -/
noncomputable def semi_hard_triplet_loss {n D : ℕ} (labels : Fin n → ℤ)
    (E : Fin n → Fin D → ℝ) (margin : ℝ) : ℝ :=
  (∑ p ∈ anchorPositivePairs labels, semi_hard_pair_loss labels E margin p.1 p.2) /
    (anchorPositivePairs labels).card

/-- C4: for an anchor-positive pair `(i,j)`, when a valid negative strictly
farther than the positive exists the chosen negative attains the minimum
distance among such candidates; otherwise the chosen negative attains the
maximum distance over all valid negatives (the hardest-negative fallback) —
an actual negative's distance, never a failure or a vacuous 0. -/
theorem semi_hard_negative_selection {n D : ℕ} (labels : Fin n → ℤ)
    (E : Fin n → Fin D → ℝ) (i j : Fin n)
    (hneg : ∃ k, anchor_negative_mask labels i k = true) :
    ((∃ k, anchor_negative_mask labels i k = true ∧
        pairwise_distances E false i j < pairwise_distances E false i k) →
      (∃ k, anchor_negative_mask labels i k = true ∧
        pairwise_distances E false i j < pairwise_distances E false i k ∧
        chosenNegDist labels E i j = pairwise_distances E false i k) ∧
      (∀ k, anchor_negative_mask labels i k = true →
        pairwise_distances E false i j < pairwise_distances E false i k →
        chosenNegDist labels E i j ≤ pairwise_distances E false i k)) ∧
    ((¬ ∃ k, anchor_negative_mask labels i k = true ∧
        pairwise_distances E false i j < pairwise_distances E false i k) →
      (∃ k, anchor_negative_mask labels i k = true ∧
        chosenNegDist labels E i j = pairwise_distances E false i k) ∧
      (∀ k, anchor_negative_mask labels i k = true →
        pairwise_distances E false i k ≤ chosenNegDist labels E i j)) := by
  have hmem : ∀ k, k ∈ semiHardCands labels E i j ↔
      (anchor_negative_mask labels i k = true ∧
        pairwise_distances E false i j < pairwise_distances E false i k) := by
    intro k
    unfold semiHardCands
    rw [@Finset.mem_filter _ _ (Classical.decPred _)]
    simp
  have hmemN : ∀ k, k ∈ validNegs labels i ↔ anchor_negative_mask labels i k = true := by
    intro k
    unfold validNegs
    rw [Finset.mem_filter]
    simp
  constructor
  · intro hex
    have hcand : (semiHardCands labels E i j).Nonempty := by
      obtain ⟨k, hk⟩ := hex
      exact ⟨k, (hmem k).2 hk⟩
    constructor
    · obtain ⟨k, hk, heq⟩ := Finset.exists_mem_eq_inf' hcand
        (fun k => pairwise_distances E false i k)
      obtain ⟨h1, h2⟩ := (hmem k).1 hk
      refine ⟨k, h1, h2, ?_⟩
      rw [chosenNegDist, dif_pos hcand]
      exact heq
    · intro k h1 h2
      rw [chosenNegDist, dif_pos hcand]
      exact Finset.inf'_le _ ((hmem k).2 ⟨h1, h2⟩)
  · intro hex
    have hcand : ¬ (semiHardCands labels E i j).Nonempty := by
      intro ⟨k, hk⟩
      exact hex ⟨k, (hmem k).1 hk⟩
    have hN : (validNegs labels i).Nonempty := by
      obtain ⟨k, hk⟩ := hneg
      exact ⟨k, (hmemN k).2 hk⟩
    constructor
    · obtain ⟨k, hk, heq⟩ := Finset.exists_mem_eq_sup' hN
        (fun k => pairwise_distances E false i k)
      refine ⟨k, (hmemN k).1 hk, ?_⟩
      rw [chosenNegDist, dif_neg hcand, dif_pos hN]
      exact heq
    · intro k h1
      rw [chosenNegDist, dif_neg hcand, dif_pos hN]
      exact Finset.le_sup' _ ((hmemN k).2 h1)

/-- Witness for C4: labels `[0,0,1]` give anchor 0 the valid negative 2, so
the selection theorem applies to the pair `(0,1)` of a concrete 1-D batch. -/
theorem semi_hard_negative_selection_witness :
    (∃ k, anchor_negative_mask (![0, 0, 1] : Fin 3 → ℤ) 0 k = true) ∧
    (((∃ k, anchor_negative_mask (![0, 0, 1] : Fin 3 → ℤ) 0 k = true ∧
        pairwise_distances (![![0], ![3], ![1]] : Fin 3 → Fin 1 → ℝ) false 0 1 <
          pairwise_distances ![![0], ![3], ![1]] false 0 k) →
      (∃ k, anchor_negative_mask (![0, 0, 1] : Fin 3 → ℤ) 0 k = true ∧
        pairwise_distances (![![0], ![3], ![1]] : Fin 3 → Fin 1 → ℝ) false 0 1 <
          pairwise_distances ![![0], ![3], ![1]] false 0 k ∧
        chosenNegDist (![0, 0, 1] : Fin 3 → ℤ) ![![0], ![3], ![1]] 0 1 =
          pairwise_distances ![![0], ![3], ![1]] false 0 k) ∧
      (∀ k, anchor_negative_mask (![0, 0, 1] : Fin 3 → ℤ) 0 k = true →
        pairwise_distances (![![0], ![3], ![1]] : Fin 3 → Fin 1 → ℝ) false 0 1 <
          pairwise_distances ![![0], ![3], ![1]] false 0 k →
        chosenNegDist (![0, 0, 1] : Fin 3 → ℤ) ![![0], ![3], ![1]] 0 1 ≤
          pairwise_distances ![![0], ![3], ![1]] false 0 k)) ∧
    ((¬ ∃ k, anchor_negative_mask (![0, 0, 1] : Fin 3 → ℤ) 0 k = true ∧
        pairwise_distances (![![0], ![3], ![1]] : Fin 3 → Fin 1 → ℝ) false 0 1 <
          pairwise_distances ![![0], ![3], ![1]] false 0 k) →
      (∃ k, anchor_negative_mask (![0, 0, 1] : Fin 3 → ℤ) 0 k = true ∧
        chosenNegDist (![0, 0, 1] : Fin 3 → ℤ) ![![0], ![3], ![1]] 0 1 =
          pairwise_distances ![![0], ![3], ![1]] false 0 k) ∧
      (∀ k, anchor_negative_mask (![0, 0, 1] : Fin 3 → ℤ) 0 k = true →
        pairwise_distances (![![0], ![3], ![1]] : Fin 3 → Fin 1 → ℝ) false 0 k ≤
          chosenNegDist (![0, 0, 1] : Fin 3 → ℤ) ![![0], ![3], ![1]] 0 1))) :=
  ⟨by decide, semi_hard_negative_selection ![0, 0, 1] ![![0], ![3], ![1]] 0 1 (by decide)⟩

theorem pairwise_distances_nonneg {n D : ℕ} (E : Fin n → Fin D → ℝ) (squared : Bool)
    (i j : Fin n) : 0 ≤ pairwise_distances E squared i j := by
  unfold pairwise_distances
  cases squared
  · simp only [Bool.false_eq_true, if_false]
    rcases eq_or_ne i j with h | h
    · simp [h]
    · rw [if_neg h]
      exact Real.sqrt_nonneg _
  · simp only [if_true]
    exact le_max_left _ _

theorem pairwise_distances_self {n D : ℕ} (E : Fin n → Fin D → ℝ) (squared : Bool)
    (i : Fin n) : pairwise_distances E squared i i = 0 := by
  unfold pairwise_distances
  cases squared
  · simp
  · simp only [if_true]
    exact squared_distances_self E i

/-- Modelled from the spec: `model/triplet_loss.py` is absent from the
sources.  §4.4 step 2 masking aid: the maximum observed distance in row
`i` of the distance matrix. -/
noncomputable def rowMax {n D : ℕ} (E : Fin n → Fin D → ℝ) (squared : Bool)
    (i : Fin n) : ℝ :=
  Finset.univ.sup' ⟨i, Finset.mem_univ i⟩ (fun k => pairwise_distances E squared i k)

/-- Modelled from the spec: `model/triplet_loss.py` is absent from the
sources.  §4.4 step 1: hardest-positive distance of anchor `i`, obtained
by masking invalid entries to 0 before taking the row maximum. -/
noncomputable def hardestPositiveDist {n D : ℕ} (labels : Fin n → ℤ)
    (E : Fin n → Fin D → ℝ) (squared : Bool) (i : Fin n) : ℝ :=
  Finset.univ.sup' ⟨i, Finset.mem_univ i⟩
    (fun j => if anchor_positive_mask labels i j = true
      then pairwise_distances E squared i j else 0)

/-- Modelled from the spec: `model/triplet_loss.py` is absent from the
sources.  §4.4 step 2: hardest-negative distance of anchor `i`, obtained
by adding `rowMax · (1 − mask)` to invalid entries before the row
minimum. -/
noncomputable def hardestNegativeDist {n D : ℕ} (labels : Fin n → ℤ)
    (E : Fin n → Fin D → ℝ) (squared : Bool) (i : Fin n) : ℝ :=
  Finset.univ.inf' ⟨i, Finset.mem_univ i⟩
    (fun k => pairwise_distances E squared i k +
      rowMax E squared i *
        (1 - (if anchor_negative_mask labels i k = true then (1 : ℝ) else 0)))

/-- Modelled from the spec: `model/triplet_loss.py` is absent from the
sources.  §4.4 step 3 and final: batch-hard loss, the mean over all `n`
anchors of `max 0 (hardest_positive − hardest_negative + margin)`. -/
noncomputable def batch_hard_triplet_loss {n D : ℕ} (labels : Fin n → ℤ)
    (E : Fin n → Fin D → ℝ) (margin : ℝ) (squared : Bool) : ℝ :=
  (∑ i, max 0 (hardestPositiveDist labels E squared i -
      hardestNegativeDist labels E squared i + margin)) / n

/-- Valid positives of anchor `i` (spec §3 anchor-positive mask). -/
def validPos {n : ℕ} (labels : Fin n → ℤ) (i : Fin n) : Finset (Fin n) :=
  Finset.univ.filter (fun j => anchor_positive_mask labels i j = true)

/-- Multiset of the distances from anchor `i` to its valid positives. -/
noncomputable def posDistMultiset {n D : ℕ} (labels : Fin n → ℤ)
    (E : Fin n → Fin D → ℝ) (squared : Bool) (i : Fin n) : Multiset ℝ :=
  (validPos labels i).val.map (fun j => pairwise_distances E squared i j)

/-- Multiset of the distances from anchor `i` to its valid negatives. -/
noncomputable def negDistMultiset {n D : ℕ} (labels : Fin n → ℤ)
    (E : Fin n → Fin D → ℝ) (squared : Bool) (i : Fin n) : Multiset ℝ :=
  (validNegs labels i).val.map (fun k => pairwise_distances E squared i k)

theorem mem_validPos {n : ℕ} (labels : Fin n → ℤ) (i j : Fin n) :
    j ∈ validPos labels i ↔ anchor_positive_mask labels i j = true := by
  unfold validPos
  rw [Finset.mem_filter]
  simp

theorem mem_validNegs {n : ℕ} (labels : Fin n → ℤ) (i k : Fin n) :
    k ∈ validNegs labels i ↔ anchor_negative_mask labels i k = true := by
  unfold validNegs
  rw [Finset.mem_filter]
  simp

theorem sup'_eq_of_map_eq {ι κ : Type} {s : Finset ι} {t : Finset κ} {f : ι → ℝ}
    {g : κ → ℝ} (hs : s.Nonempty) (ht : t.Nonempty)
    (h : s.val.map f = t.val.map g) : s.sup' hs f = t.sup' ht g := by
  apply WithBot.coe_injective
  rw [Finset.coe_sup', Finset.coe_sup', Finset.sup_def, Finset.sup_def,
    ← Multiset.map_map, ← Multiset.map_map, h]

theorem inf'_eq_of_map_eq {ι κ : Type} {s : Finset ι} {t : Finset κ} {f : ι → ℝ}
    {g : κ → ℝ} (hs : s.Nonempty) (ht : t.Nonempty)
    (h : s.val.map f = t.val.map g) : s.inf' hs f = t.inf' ht g := by
  apply WithTop.coe_injective
  rw [Finset.coe_inf', Finset.coe_inf', Finset.inf_def, Finset.inf_def,
    ← Multiset.map_map, ← Multiset.map_map, h]

theorem nonempty_of_map_eq {ι κ : Type} {s : Finset ι} {t : Finset κ} {f : ι → ℝ}
    {g : κ → ℝ} (h : s.val.map f = t.val.map g) : s.Nonempty ↔ t.Nonempty := by
  have hc : Multiset.card (s.val.map f) = Multiset.card (t.val.map g) := by rw [h]
  rw [Multiset.card_map, Multiset.card_map] at hc
  rw [← Finset.card_pos, ← Finset.card_pos, Finset.card, Finset.card, hc]

theorem hardestPositiveDist_eq {n D : ℕ} (labels : Fin n → ℤ)
    (E : Fin n → Fin D → ℝ) (squared : Bool) (i : Fin n) :
    hardestPositiveDist labels E squared i =
      if h : (validPos labels i).Nonempty
      then max 0 ((validPos labels i).sup' h (fun j => pairwise_distances E squared i j))
      else 0 := by
  unfold hardestPositiveDist
  by_cases h : (validPos labels i).Nonempty
  · rw [dif_pos h]
    apply le_antisymm
    · rw [Finset.sup'_le_iff]
      intro j _
      by_cases hap : anchor_positive_mask labels i j = true
      · rw [if_pos hap]
        exact le_trans (Finset.le_sup' _ ((mem_validPos labels i j).2 hap))
          (le_max_right _ _)
      · rw [if_neg hap]
        exact le_max_left _ _
    · apply max_le
      · have hle := Finset.le_sup'
          (fun j => if anchor_positive_mask labels i j = true
            then pairwise_distances E squared i j else 0) (Finset.mem_univ i)
        have h0 : (if anchor_positive_mask labels i i = true
            then pairwise_distances E squared i i else 0) = 0 := by
          simp [anchor_positive_mask]
        rw [h0] at hle
        exact hle
      · rw [Finset.sup'_le_iff]
        intro j hj
        have hap := (mem_validPos labels i j).1 hj
        have hle := Finset.le_sup'
          (fun j => if anchor_positive_mask labels i j = true
            then pairwise_distances E squared i j else 0) (Finset.mem_univ j)
        rw [if_pos hap] at hle
        exact hle
  · rw [dif_neg h]
    have hall : ∀ j : Fin n, ¬ anchor_positive_mask labels i j = true := by
      intro j hj
      exact h ⟨j, (mem_validPos labels i j).2 hj⟩
    rw [Finset.sup'_congr _ rfl (fun j _ => if_neg (hall j))]
    exact Finset.sup'_const _ _

theorem hardestNegativeDist_eq {n D : ℕ} (labels : Fin n → ℤ)
    (E : Fin n → Fin D → ℝ) (squared : Bool) (i : Fin n) :
    hardestNegativeDist labels E squared i =
      if h : (validNegs labels i).Nonempty
      then (validNegs labels i).inf' h (fun k => pairwise_distances E squared i k)
      else rowMax E squared i := by
  unfold hardestNegativeDist
  by_cases h : (validNegs labels i).Nonempty
  · rw [dif_pos h]
    apply le_antisymm
    · obtain ⟨k0, hk0, heq⟩ := Finset.exists_mem_eq_inf' h
        (fun k => pairwise_distances E squared i k)
      rw [heq]
      have hmask := (mem_validNegs labels i k0).1 hk0
      have hle := Finset.inf'_le
        (fun k => pairwise_distances E squared i k +
          rowMax E squared i *
            (1 - (if anchor_negative_mask labels i k = true then (1 : ℝ) else 0)))
        (Finset.mem_univ k0)
      rw [if_pos hmask] at hle
      linarith [hle]
    · rw [Finset.le_inf'_iff]
      intro k _
      by_cases hmask : anchor_negative_mask labels i k = true
      · rw [if_pos hmask]
        have hle : (validNegs labels i).inf' h (fun k => pairwise_distances E squared i k) ≤
            pairwise_distances E squared i k :=
          Finset.inf'_le _ ((mem_validNegs labels i k).2 hmask)
        linarith [hle]
      · rw [if_neg hmask]
        have h' := h
        obtain ⟨k1, hk1⟩ := h'
        have h1 : (validNegs labels i).inf' h (fun k => pairwise_distances E squared i k) ≤
            pairwise_distances E squared i k1 := Finset.inf'_le _ hk1
        have h2 : pairwise_distances E squared i k1 ≤ rowMax E squared i :=
          Finset.le_sup' (fun k => pairwise_distances E squared i k) (Finset.mem_univ k1)
        have h4 := pairwise_distances_nonneg E squared i k
        linarith
  · rw [dif_neg h]
    have hall : ∀ k : Fin n, ¬ anchor_negative_mask labels i k = true := by
      intro k hk
      exact h ⟨k, (mem_validNegs labels i k).2 hk⟩
    apply le_antisymm
    · have hle := Finset.inf'_le
        (fun k => pairwise_distances E squared i k +
          rowMax E squared i *
            (1 - (if anchor_negative_mask labels i k = true then (1 : ℝ) else 0)))
        (Finset.mem_univ i)
      rw [if_neg (hall i), pairwise_distances_self] at hle
      linarith [hle]
    · rw [Finset.le_inf'_iff]
      intro k _
      rw [if_neg (hall k)]
      have h4 := pairwise_distances_nonneg E squared i k
      linarith

theorem rowMax_of_no_validNegs {n D : ℕ} (labels : Fin n → ℤ)
    (E : Fin n → Fin D → ℝ) (squared : Bool) (i : Fin n)
    (h : ¬ (validNegs labels i).Nonempty) :
    rowMax E squared i = hardestPositiveDist labels E squared i := by
  have hlab : ∀ k : Fin n, labels i = labels k := by
    intro k
    by_contra hne
    exact h ⟨k, (mem_validNegs labels i k).2 (by simp [anchor_negative_mask, hne])⟩
  rw [hardestPositiveDist_eq]
  by_cases hpos : (validPos labels i).Nonempty
  · rw [dif_pos hpos]
    unfold rowMax
    apply le_antisymm
    · rw [Finset.sup'_le_iff]
      intro k _
      rcases eq_or_ne k i with hk | hk
      · subst hk
        rw [pairwise_distances_self]
        exact le_max_left _ _
      · have hmem : k ∈ validPos labels i := (mem_validPos labels i k).2 (by
          simp [anchor_positive_mask, (Ne.symm hk), hlab k])
        exact le_trans (Finset.le_sup' _ hmem) (le_max_right _ _)
    · apply max_le
      · calc (0 : ℝ) = pairwise_distances E squared i i :=
              (pairwise_distances_self E squared i).symm
          _ ≤ _ := Finset.le_sup' _ (Finset.mem_univ i)
      · rw [Finset.sup'_le_iff]
        intro j _
        exact Finset.le_sup' _ (Finset.mem_univ j)
  · rw [dif_neg hpos]
    have honly : ∀ k : Fin n, k = i := by
      intro k
      by_contra hk
      exact hpos ⟨k, (mem_validPos labels i k).2 (by
        simp [anchor_positive_mask, (Ne.symm hk), hlab k])⟩
    unfold rowMax
    apply le_antisymm
    · rw [Finset.sup'_le_iff]
      intro k _
      rw [honly k, pairwise_distances_self]
    · calc (0 : ℝ) = pairwise_distances E squared i i :=
            (pairwise_distances_self E squared i).symm
        _ ≤ _ := Finset.le_sup' _ (Finset.mem_univ i)

/-- C5: two batches whose anchors have, anchor by anchor, the same multiset
of valid-positive distances and the same multiset of valid-negative
distances yield the same batch-hard loss — per anchor only the extremal
(maximum positive, minimum negative) distances matter. -/
theorem batch_hard_extremal_invariance {n D₁ D₂ : ℕ} (labels₁ labels₂ : Fin n → ℤ)
    (E₁ : Fin n → Fin D₁ → ℝ) (E₂ : Fin n → Fin D₂ → ℝ) (margin : ℝ)
    (squared₁ squared₂ : Bool)
    (h : ∀ i, posDistMultiset labels₁ E₁ squared₁ i = posDistMultiset labels₂ E₂ squared₂ i ∧
      negDistMultiset labels₁ E₁ squared₁ i = negDistMultiset labels₂ E₂ squared₂ i) :
    batch_hard_triplet_loss labels₁ E₁ margin squared₁ =
      batch_hard_triplet_loss labels₂ E₂ margin squared₂ := by
  unfold batch_hard_triplet_loss
  have hsum : (∑ i, max 0 (hardestPositiveDist labels₁ E₁ squared₁ i -
        hardestNegativeDist labels₁ E₁ squared₁ i + margin)) =
      ∑ i, max 0 (hardestPositiveDist labels₂ E₂ squared₂ i -
        hardestNegativeDist labels₂ E₂ squared₂ i + margin) := by
    apply Finset.sum_congr rfl
    intro i _
    obtain ⟨hp, hn⟩ := h i
    simp only [posDistMultiset] at hp
    simp only [negDistMultiset] at hn
    have hppos : hardestPositiveDist labels₁ E₁ squared₁ i =
        hardestPositiveDist labels₂ E₂ squared₂ i := by
      rw [hardestPositiveDist_eq, hardestPositiveDist_eq]
      by_cases h1 : (validPos labels₁ i).Nonempty
      · have h2 : (validPos labels₂ i).Nonempty := (nonempty_of_map_eq hp).1 h1
        rw [dif_pos h1, dif_pos h2, sup'_eq_of_map_eq h1 h2 hp]
      · have h2 : ¬ (validPos labels₂ i).Nonempty :=
          fun hh => h1 ((nonempty_of_map_eq hp).2 hh)
        rw [dif_neg h1, dif_neg h2]
    by_cases hn1 : (validNegs labels₁ i).Nonempty
    · have hn2 : (validNegs labels₂ i).Nonempty := (nonempty_of_map_eq hn).1 hn1
      have hneg : hardestNegativeDist labels₁ E₁ squared₁ i =
          hardestNegativeDist labels₂ E₂ squared₂ i := by
        rw [hardestNegativeDist_eq, hardestNegativeDist_eq, dif_pos hn1, dif_pos hn2,
          inf'_eq_of_map_eq hn1 hn2 hn]
      rw [hppos, hneg]
    · have hn2 : ¬ (validNegs labels₂ i).Nonempty :=
        fun hh => hn1 ((nonempty_of_map_eq hn).2 hh)
      have e1 : hardestNegativeDist labels₁ E₁ squared₁ i =
          hardestPositiveDist labels₁ E₁ squared₁ i := by
        rw [hardestNegativeDist_eq, dif_neg hn1]
        exact rowMax_of_no_validNegs labels₁ E₁ squared₁ i hn1
      have e2 : hardestNegativeDist labels₂ E₂ squared₂ i =
          hardestPositiveDist labels₂ E₂ squared₂ i := by
        rw [hardestNegativeDist_eq, dif_neg hn2]
        exact rowMax_of_no_validNegs labels₂ E₂ squared₂ i hn2
      rw [e1, e2, hppos]
  rw [hsum]

/-- Witness for C5: the 1-D batches `[0, 1]` and `[5, 6]` with labels
`[0, 1]` have identical per-anchor positive and negative distance
multisets (all squared distances are 1), so their batch-hard losses
coincide. -/
theorem batch_hard_extremal_invariance_witness :
    (∀ i : Fin 2,
      posDistMultiset (![0, 1] : Fin 2 → ℤ) (![![0], ![1]] : Fin 2 → Fin 1 → ℝ) true i =
        posDistMultiset (![0, 1] : Fin 2 → ℤ) (![![5], ![6]] : Fin 2 → Fin 1 → ℝ) true i ∧
      negDistMultiset (![0, 1] : Fin 2 → ℤ) (![![0], ![1]] : Fin 2 → Fin 1 → ℝ) true i =
        negDistMultiset (![0, 1] : Fin 2 → ℤ) (![![5], ![6]] : Fin 2 → Fin 1 → ℝ) true i) ∧
    batch_hard_triplet_loss (![0, 1] : Fin 2 → ℤ) (![![0], ![1]] : Fin 2 → Fin 1 → ℝ)
        (1 / 2) true =
      batch_hard_triplet_loss (![0, 1] : Fin 2 → ℤ) (![![5], ![6]] : Fin 2 → Fin 1 → ℝ)
        (1 / 2) true := by
  have hdist : ∀ i j : Fin 2,
      pairwise_distances (![![0], ![1]] : Fin 2 → Fin 1 → ℝ) true i j =
        pairwise_distances (![![5], ![6]] : Fin 2 → Fin 1 → ℝ) true i j := by
    intro i j
    fin_cases i <;> fin_cases j <;>
      simp [pairwise_distances, squared_distances, gram] <;> norm_num
  have hyp : ∀ i : Fin 2,
      posDistMultiset (![0, 1] : Fin 2 → ℤ) (![![0], ![1]] : Fin 2 → Fin 1 → ℝ) true i =
        posDistMultiset (![0, 1] : Fin 2 → ℤ) (![![5], ![6]] : Fin 2 → Fin 1 → ℝ) true i ∧
      negDistMultiset (![0, 1] : Fin 2 → ℤ) (![![0], ![1]] : Fin 2 → Fin 1 → ℝ) true i =
        negDistMultiset (![0, 1] : Fin 2 → ℤ) (![![5], ![6]] : Fin 2 → Fin 1 → ℝ) true i := by
    intro i
    constructor
    · unfold posDistMultiset
      exact Multiset.map_congr rfl fun j _ => hdist i j
    · unfold negDistMultiset
      exact Multiset.map_congr rfl fun j _ => hdist i j
  exact ⟨hyp, batch_hard_extremal_invariance ![0, 1] ![0, 1] ![![0], ![1]] ![![5], ![6]]
    (1 / 2) true true hyp⟩

/-- Shape of the value the loss-selection step hands to the training
driver: the batch-all strategy yields a loss together with the fraction of
positive triplets; the other strategies yield a loss alone
(`model_fn.py` lines 142–151). -/
inductive LossOutput where
  | withFraction : ℝ → ℝ → LossOutput
  | lossOnly : ℝ → LossOutput

/-- Loss-selection step of `model_fn` (`model_fn.py` lines 142–154): the
strategy string picks one of the three loss functions — `batch_all` and
`batch_hard` receive the caller's squared flag, `batch_semi` does not —
and an unrecognized name raises a `ValueError` naming the value. -/
noncomputable def select_triplet_loss {n D : ℕ} (strategy : String) (labels : Fin n → ℤ)
    (E : Fin n → Fin D → ℝ) (margin : ℝ) (squared : Bool) : Except String LossOutput :=
  if strategy = "batch_all" then
    Except.ok (LossOutput.withFraction (batch_all_triplet_loss labels E margin squared).1
      (batch_all_triplet_loss labels E margin squared).2)
  else if strategy = "batch_hard" then
    Except.ok (LossOutput.lossOnly (batch_hard_triplet_loss labels E margin squared))
  else if strategy = "batch_semi" then
    Except.ok (LossOutput.lossOnly (semi_hard_triplet_loss labels E margin))
  else
    Except.error ("Triplet strategy not recognized: " ++ strategy)

/-- Metric wiring of `model_fn` (`model_fn.py` lines 166–167 and 175–176):
the `fraction_positive_triplets` metric is produced exactly when the
strategy is `batch_all`. -/
def fraction_metric_logged (strategy : String) : Bool :=
  strategy == "batch_all"

/-- C6: a strategy string that is none of the three recognized names makes
the loss-selection step fail with an error that names the offending value;
no strategy is silently used as a default. -/
theorem unrecognized_strategy_error {n D : ℕ} (strategy : String) (labels : Fin n → ℤ)
    (E : Fin n → Fin D → ℝ) (margin : ℝ) (squared : Bool)
    (h1 : strategy ≠ "batch_all") (h2 : strategy ≠ "batch_hard")
    (h3 : strategy ≠ "batch_semi") :
    select_triplet_loss strategy labels E margin squared =
      Except.error ("Triplet strategy not recognized: " ++ strategy) := by
  unfold select_triplet_loss
  rw [if_neg h1, if_neg h2, if_neg h3]

/-- Witness for C6: the strategy string `"fancy"` is rejected with an error
message carrying that very string. -/
theorem unrecognized_strategy_error_witness :
    ("fancy" ≠ "batch_all" ∧ "fancy" ≠ "batch_hard" ∧ "fancy" ≠ "batch_semi") ∧
    select_triplet_loss "fancy" (![0] : Fin 1 → ℤ) (fun _ _ => (0 : ℝ) : Fin 1 → Fin 1 → ℝ)
        (1 / 2) false =
      Except.error ("Triplet strategy not recognized: " ++ "fancy") :=
  ⟨⟨by decide, by decide, by decide⟩,
    unrecognized_strategy_error "fancy" ![0] (fun _ _ => (0 : ℝ)) (1 / 2) false
      (by decide) (by decide) (by decide)⟩

/-- C7: the semi-hard strategy is always computed in non-squared distance
space — `semi_hard_triplet_loss` takes only labels, embeddings and margin,
so the selection result for `batch_semi` is independent of the caller's
squared flag — while `batch_all` and `batch_hard` receive that flag. -/
theorem semi_hard_distance_convention {n D : ℕ} (labels : Fin n → ℤ)
    (E : Fin n → Fin D → ℝ) (margin : ℝ) (sq sq' : Bool) :
    select_triplet_loss "batch_semi" labels E margin sq =
      Except.ok (LossOutput.lossOnly (semi_hard_triplet_loss labels E margin)) ∧
    select_triplet_loss "batch_semi" labels E margin sq =
      select_triplet_loss "batch_semi" labels E margin sq' ∧
    select_triplet_loss "batch_all" labels E margin sq =
      Except.ok (LossOutput.withFraction (batch_all_triplet_loss labels E margin sq).1
        (batch_all_triplet_loss labels E margin sq).2) ∧
    select_triplet_loss "batch_hard" labels E margin sq =
      Except.ok (LossOutput.lossOnly (batch_hard_triplet_loss labels E margin sq)) := by
  unfold select_triplet_loss
  refine ⟨?_, ?_, ?_, ?_⟩
  · rw [if_neg (by decide), if_neg (by decide), if_pos rfl]
  · rw [if_neg (by decide), if_neg (by decide), if_pos rfl, if_neg (by decide),
      if_neg (by decide)]
  · rw [if_pos rfl]
  · rw [if_neg (by decide), if_pos rfl]

/-- C8: the batch-all strategy returns a (loss, fraction) pair while
batch-hard and semi-hard return a loss alone, and the fraction metric is
logged exactly when the batch-all strategy is selected. -/
theorem strategy_output_shapes {n D : ℕ} (labels : Fin n → ℤ)
    (E : Fin n → Fin D → ℝ) (margin : ℝ) (squared : Bool) :
    (∃ l f : ℝ, select_triplet_loss "batch_all" labels E margin squared =
      Except.ok (LossOutput.withFraction l f)) ∧
    (∃ l : ℝ, select_triplet_loss "batch_hard" labels E margin squared =
      Except.ok (LossOutput.lossOnly l)) ∧
    (∃ l : ℝ, select_triplet_loss "batch_semi" labels E margin squared =
      Except.ok (LossOutput.lossOnly l)) ∧
    (∀ s : String, fraction_metric_logged s = true ↔ s = "batch_all") := by
  refine ⟨⟨(batch_all_triplet_loss labels E margin squared).1,
      (batch_all_triplet_loss labels E margin squared).2, ?_⟩,
    ⟨batch_hard_triplet_loss labels E margin squared, ?_⟩,
    ⟨semi_hard_triplet_loss labels E margin, ?_⟩, fun s => ?_⟩
  · unfold select_triplet_loss
    rw [if_pos rfl]
  · unfold select_triplet_loss
    rw [if_neg (by decide), if_pos rfl]
  · unfold select_triplet_loss
    rw [if_neg (by decide), if_neg (by decide), if_pos rfl]
  · unfold fraction_metric_logged
    exact beq_iff_eq

/-- `read32` from `fmnist_dataset.py`: four bytes of the stream as an
unsigned 32-bit big-endian integer (missing bytes read as 0; the model
takes the stream position as a list suffix). -/
def read32 (bs : List ℕ) : ℕ :=
  2 ^ 24 * bs.getD 0 0 + 2 ^ 16 * bs.getD 1 0 + 2 ^ 8 * bs.getD 2 0 + bs.getD 3 0

/-- `check_image_file_header` from `fmnist_dataset.py`: reads magic,
num_images (unused), rows and cols as consecutive 32-bit words and raises
`ValueError` unless magic is 2051 and the images are 28×28. -/
def check_image_file_header (bs : List ℕ) : Except String Unit :=
  if read32 bs ≠ 2051 then
    Except.error ("Invalid magic number " ++ toString (read32 bs) ++ " in FMNIST file")
  else if read32 (bs.drop 8) ≠ 28 ∨ read32 (bs.drop 12) ≠ 28 then
    Except.error ("Invalid FMNIST file: Expected 28x28 images, found " ++
      toString (read32 (bs.drop 8)) ++ "x" ++ toString (read32 (bs.drop 12)))
  else
    Except.ok ()

/-- Big-endian byte serialisation of a 32-bit word, as written in the IDX
file format the header check reads back. -/
def bytesOfWord (w : ℕ) : List ℕ :=
  [w / 2 ^ 24 % 256, w / 2 ^ 16 % 256, w / 2 ^ 8 % 256, w % 256]

/-- The 16-byte IDX image-file header: magic, image count, rows, cols. -/
def mkHeader (magic count rows cols : ℕ) : List ℕ :=
  bytesOfWord magic ++ bytesOfWord count ++ bytesOfWord rows ++ bytesOfWord cols

theorem read32_bytesOfWord (w : ℕ) (h : w < 2 ^ 32) (rest : List ℕ) :
    read32 (bytesOfWord w ++ rest) = w := by
  simp only [read32, bytesOfWord, List.cons_append, List.nil_append, List.getD_cons_zero,
    List.getD_cons_succ]
  omega

/-- C9: the image-header check succeeds exactly when the magic word is 2051
and the row and column words are 28, independently of the (unread) image
count word, and fails with a `ValueError` otherwise. -/
theorem check_image_file_header_correct (magic count rows cols : ℕ) (rest : List ℕ)
    (h1 : magic < 2 ^ 32) (_h2 : count < 2 ^ 32) (h3 : rows < 2 ^ 32)
    (h4 : cols < 2 ^ 32) :
    (check_image_file_header (mkHeader magic count rows cols ++ rest) = Except.ok () ↔
      (magic = 2051 ∧ rows = 28 ∧ cols = 28)) ∧
    ((∃ msg, check_image_file_header (mkHeader magic count rows cols ++ rest) =
        Except.error msg) ↔ ¬ (magic = 2051 ∧ rows = 28 ∧ cols = 28)) := by
  have hdrop8 : (mkHeader magic count rows cols ++ rest).drop 8 =
      bytesOfWord rows ++ (bytesOfWord cols ++ rest) := by
    simp [mkHeader, bytesOfWord]
  have hdrop12 : (mkHeader magic count rows cols ++ rest).drop 12 =
      bytesOfWord cols ++ rest := by
    simp [mkHeader, bytesOfWord]
  have e1 : read32 (mkHeader magic count rows cols ++ rest) = magic := by
    have : mkHeader magic count rows cols ++ rest =
        bytesOfWord magic ++ (bytesOfWord count ++ (bytesOfWord rows ++
          (bytesOfWord cols ++ rest))) := by
      simp [mkHeader]
    rw [this, read32_bytesOfWord magic h1]
  have e3 : read32 ((mkHeader magic count rows cols ++ rest).drop 8) = rows := by
    rw [hdrop8, read32_bytesOfWord rows h3]
  have e4 : read32 ((mkHeader magic count rows cols ++ rest).drop 12) = cols := by
    rw [hdrop12, read32_bytesOfWord cols h4]
  unfold check_image_file_header
  rw [e1, e3, e4]
  split_ifs with hm hrc
  · refine ⟨⟨fun hok => absurd hok (by simp), fun hgood => absurd hgood.1 hm⟩,
      ⟨fun _ hgood => hm hgood.1, fun _ => ⟨_, rfl⟩⟩⟩
  · refine ⟨⟨fun hok => absurd hok (by simp), fun hgood => ?_⟩,
      ⟨fun _ hgood => ?_, fun _ => ⟨_, rfl⟩⟩⟩
    · exact hrc.elim (fun hr => hr hgood.2.1) (fun hc => hc hgood.2.2)
    · exact hrc.elim (fun hr => hr hgood.2.1) (fun hc => hc hgood.2.2)
  · rw [not_ne_iff] at hm
    rw [not_or, not_ne_iff, not_ne_iff] at hrc
    refine ⟨⟨fun _ => ⟨hm, hrc.1, hrc.2⟩, fun _ => rfl⟩,
      ⟨fun hex => absurd hex.choose_spec (by simp), fun hbad => ?_⟩⟩
    exact absurd ⟨hm, hrc.1, hrc.2⟩ hbad

/-- Witness for C9: the genuine FMNIST training-image header (magic 2051,
60000 images, 28×28) passes the check. -/
theorem check_image_file_header_correct_witness :
    (2051 < 2 ^ 32 ∧ 60000 < 2 ^ 32 ∧ 28 < 2 ^ 32 ∧ 28 < 2 ^ 32) ∧
    ((check_image_file_header (mkHeader 2051 60000 28 28 ++ []) = Except.ok () ↔
      ((2051 : ℕ) = 2051 ∧ (28 : ℕ) = 28 ∧ (28 : ℕ) = 28)) ∧
    ((∃ msg, check_image_file_header (mkHeader 2051 60000 28 28 ++ []) =
        Except.error msg) ↔ ¬ ((2051 : ℕ) = 2051 ∧ (28 : ℕ) = 28 ∧ (28 : ℕ) = 28))) :=
  ⟨⟨by decide, by decide, by decide, by decide⟩,
    check_image_file_header_correct 2051 60000 28 28 []
      (by decide) (by decide) (by decide) (by decide)⟩

/-- `decode_image` from `fmnist_dataset.py` (inner function of `dataset`):
each raw byte of the 784-byte record is cast to float and divided by
255.0, normalising `[0, 255]` to `[0.0, 1.0]`; floats are modelled as ℚ. -/
def decode_image (record : List ℕ) : List ℚ :=
  List.map (fun b : ℕ => (b : ℚ) / 255) record

/-- C10: decoding a 784-byte record (each byte ≤ 255) yields a length-784
vector whose components all lie in the closed interval `[0, 1]`. -/
theorem decode_image_unit_interval (record : List ℕ)
    (hlen : record.length = 784) (hbyte : ∀ b ∈ record, b ≤ 255) :
    (decode_image record).length = 784 ∧
    ∀ x ∈ decode_image record, 0 ≤ x ∧ x ≤ 1 := by
  constructor
  · unfold decode_image
    rw [List.length_map, hlen]
  · intro x hx
    unfold decode_image at hx
    rw [List.mem_map] at hx
    obtain ⟨b, hb, rfl⟩ := hx
    constructor
    · exact div_nonneg (Nat.cast_nonneg b) (by norm_num)
    · rw [div_le_one (by norm_num)]
      exact_mod_cast hbyte b hb

/-- Witness for C10: the all-white record (784 bytes of value 255) decodes
to 784 components inside `[0, 1]`. -/
theorem decode_image_unit_interval_witness :
    ((List.replicate 784 255).length = 784 ∧
      (∀ b ∈ List.replicate 784 255, b ≤ 255)) ∧
    ((decode_image (List.replicate 784 255)).length = 784 ∧
      ∀ x ∈ decode_image (List.replicate 784 255), 0 ≤ x ∧ x ≤ 1) :=
  ⟨⟨by rw [List.length_replicate], by intro b hb; rw [List.eq_of_mem_replicate hb]⟩,
    decode_image_unit_interval (List.replicate 784 255) (by rw [List.length_replicate])
      (by intro b hb; rw [List.eq_of_mem_replicate hb])⟩

end TripletRepo
